import Mathlib

/-!
Verification development for the tracked-change extraction engine of
`python-xml/docxml_parser.py`.

The XML/zip layer (zipfile, ElementTree) is abstracted: a `Paragraph` carries
the full text that `extract_text_from_runs` reconstructs from its `w:t` runs,
and each `RawMark` carries the result of `attrib.get('w:id')` (`idAttr`) and
the text extracted from the runs nested in the `w:del` / `w:ins` element.
Python strings are modelled by `String`; the Python string operations used by
the source (`strip`, `split`, `lower`, `startswith`, `replace`, `list.index`,
`"".join`) are given executable models below, named `py...`.

The dict keys `original_partial` / `correction_partial` of the source records
appear here as the record fields `original_ctx` / `correction_ctx`.
-/

/-- Whitespace characters recognised by Python's `str.strip()` / `str.split()`
(ASCII subset; the documents at hand contain no exotic Unicode spacing). -/
def pyIsSpace (c : Char) : Bool :=
  c = ' ' || c = '\t' || c = '\n' || c = '\r' || c = '\x0b' || c = '\x0c'

/-- Python `s.strip()`. -/
def pystrip (s : String) : String :=
  String.mk (((s.data.dropWhile pyIsSpace).reverse.dropWhile pyIsSpace).reverse)

/-- Helper for `pySplit`: splits a character list on whitespace runs,
`acc` holding the current (reversed) word. -/
def pySplitAux : List Char → List Char → List String
  | [], acc => if acc = [] then [] else [String.mk acc.reverse]
  | c :: cs, acc =>
    if pyIsSpace c then
      if acc = [] then pySplitAux cs []
      else String.mk acc.reverse :: pySplitAux cs []
    else pySplitAux cs (c :: acc)

/-- Python `s.split()` (no separator argument): split on whitespace runs,
dropping empty fragments. -/
def pySplit (s : String) : List String :=
  pySplitAux s.data []

/-- Python `list.index` returning `none` instead of raising `ValueError`:
index of the first occurrence. -/
def pyIndex : List String → String → Option Nat
  | [], _ => none
  | y :: ys, x => if y = x then some 0 else (pyIndex ys x).map (· + 1)

/-- Python `s.lower()` (per-character lowering). -/
def pyLower (s : String) : String :=
  String.mk (s.data.map Char.toLower)

/-- Python `s.startswith(p)`. -/
def pyStartsWith (s p : String) : Bool :=
  p.data.isPrefixOf s.data

/-- Helper for `pyReplace` with a non-empty pattern; `fuel` bounds the
recursion (one unit per character consumed, so `fuel = length` is exact). -/
def pyReplaceAux (old new : List Char) : Nat → List Char → List Char
  | _, [] => []
  | 0, l => l
  | fuel + 1, c :: cs =>
    if old.isPrefixOf (c :: cs) then
      new ++ pyReplaceAux old new fuel (List.drop old.length (c :: cs))
    else
      c :: pyReplaceAux old new fuel cs

/-- Python `s.replace(old, new)`: every non-overlapping occurrence, scanned
left to right, is replaced.  For an empty `old`, Python inserts `new` between
all characters and at both ends. -/
def pyReplace (s old new : String) : String :=
  match old.data with
  | [] => String.mk (new.data ++ s.data.flatMap (fun c => c :: new.data))
  | o :: os => String.mk (pyReplaceAux (o :: os) new.data s.data.length s.data)

/-- Python truthiness of an `Optional[str]`: `None` and `""` are falsy. -/
def pyTruthy : Option String → Bool
  | none => false
  | some s => s != ""

/-- Python `x if x else ""` for `x : Optional[str]`. -/
def pyOptStr : Option String → String
  | none => ""
  | some s => s

/-- `extract_text_from_runs`: joins the text of `<w:t>` elements, skipping
runs whose `text` is `None` or empty. -/
def extract_text_from_runs (runs : List (Option String)) : String :=
  String.join ((runs.filterMap id).filter (fun t => t != ""))

/-- The word window `words[start:end]` computed inside `get_surrounding_text`
(`start = max(0, index - window)`, `end = min(len(words), index + window +
tlen)` where `tlen` is the number of words of the target). -/
def windowWords (words : List String) (index window tlen : Nat) : List String :=
  let start := index - window
  let stop := min words.length (index + window + tlen)
  (words.drop start).take (stop - start)

/-- `get_surrounding_text`: a bounded word window around the first word of
`target`, joined (as in the source) with no separator; falls back to the full
text when the target is blank or its first word is not found. -/
def get_surrounding_text (text target : String) (window : Nat := 5) : String :=
  if pystrip target == "" then text
  else
    let words := pySplit text
    let target_words := pySplit target
    match target_words with
    | [] => text
    | tw :: _ =>
      match pyIndex words tw with
      | none => text
      | some index => String.join (windowWords words index window target_words.length)

/-- `is_partial_word_modification`: the lengths differ and the lowercased
original starts with the lowercased correction. -/
def is_partial_word_modification (original corrected : String) : Bool :=
  if original.length ≠ corrected.length && pyStartsWith (pyLower original) (pyLower corrected) then
    true
  else
    false

/-- The accumulator loop of `merge_deletions`: `current` is the pending
accumulator, flushed when the next identifier differs. -/
def merge_core (current : String × String) : List (String × String) → List (String × String)
  | [] => [current]
  | next :: rest =>
    if current.1 = next.1 then
      merge_core (current.1, current.2 ++ " " ++ next.2) rest
    else
      current :: merge_core next rest

/-- `merge_deletions`: fuses runs of deletion marks sharing an identifier into
one entry, texts joined by a single space. -/
def merge_deletions : List (String × String) → List (String × String)
  | [] => []
  | d :: ds => merge_core d ds

/-- Modelled from the spec: replacement of only the first literal occurrence
of `old` in `s` (the spec's §4.7 wording, "the full text with the first
literal occurrence of the deleted snippet textually replaced"); used to
compare the spec's words with the source's `str.replace`. -/
def spec_replaceFirstAux (old new : List Char) : List Char → List Char
  | [] => []
  | c :: cs =>
    if old.isPrefixOf (c :: cs) then new ++ List.drop old.length (c :: cs)
    else c :: spec_replaceFirstAux old new cs

/-- Modelled from the spec: first-occurrence-only string replacement. -/
def spec_replaceFirst (s old new : String) : String :=
  String.mk (spec_replaceFirstAux old.data new.data s.data)

/-- A raw revision mark as the scanner sees it: the (optional) `w:id`
attribute and the text of its nested runs. -/
structure RawMark where
  idAttr : Option String
  text : String
  deriving DecidableEq, Repr

/-- A paragraph: its full text (from its `w:t` runs) and its `w:del` /
`w:ins` revision elements in document order. -/
structure Paragraph where
  fullText : String
  delMarks : List RawMark
  insMarks : List RawMark
  deriving DecidableEq, Repr

/-- One row of the emitted dataset (`data.append({...})` in the source);
`original_ctx` / `correction_ctx` are the dict keys `original_partial` /
`correction_partial`. -/
structure Record where
  ID : Nat
  original_single : Option String
  original_ctx : String
  original_sentence : String
  correction_single : Option String
  correction_ctx : String
  corrected_sentence : String
  change_type : String
  deriving DecidableEq, Repr

/-- The mutable locals of `extract_tracked_changes` threaded through the
loops: emitted rows, the `unique_id` counter, and the Python locals
`original_partial` / `corrected_sentence`, which start unbound (`none`)
and may be read before assignment. -/
structure ExtSt where
  data : List Record
  unique_id : Nat
  original_ctx : Option String
  corrected_sentence : Option String
  deriving DecidableEq, Repr

/-- The scanner loop shared by deletions and insertions: the identifier is
`attrib.get('w:id', str(unique_id))` and marks with empty text are dropped
(`if del_text:` / `if ins_text:`). -/
def scanMarks (uid : Nat) (marks : List RawMark) : List (String × String) :=
  (marks.map (fun m => (m.idAttr.getD (toString uid), m.text))).filter
    (fun p => p.2 != "")

/-- `next((ins_text for ins_id, ins_text in insertions if ins_id == del_id), None)`. -/
def matchingInsert (insertions : List (String × String)) (del_id : String) : Option String :=
  (insertions.find? (fun i => i.1 == del_id)).map (fun i => i.2)

/-- The `correction_single` computed for a deletion: the matched insertion's
text when the match is truthy, else `None`. -/
def delCorrection (insertions : List (String × String)) (del_id : String) : Option String :=
  if pyTruthy (matchingInsert insertions del_id) then matchingInsert insertions del_id
  else none

/-- The row appended for one merged deletion, given the values `a` and `b`
held by the locals `original_partial` and `corrected_sentence` at append
time. -/
def delRecordCore (full_text : String) (insertions : List (String × String))
    (uid : Nat) (d : String × String) (a b : String) : Record :=
  { ID := uid
    original_single := some d.2
    original_ctx := a
    original_sentence := full_text
    correction_single := delCorrection insertions d.1
    correction_ctx := b
    corrected_sentence := b
    change_type :=
      if pyTruthy (delCorrection insertions d.1) &&
          is_partial_word_modification d.2 (pyOptStr (delCorrection insertions d.1)) then
        "partial-word modification"
      else if pyTruthy (matchingInsert insertions d.1) then "both"
      else "deletion" }

/-- The values of `original_partial` / `corrected_sentence` for one merged
deletion: recomputed when `del_text.strip()` is truthy, otherwise the stale
previous values (`none` when still unbound, which is Python's
`UnboundLocalError`). -/
def delCtxPair (full_text : String) (octx cs : Option String)
    (d : String × String) (corr : Option String) : Option (String × String) :=
  if pystrip d.2 != "" then
    some (get_surrounding_text full_text d.2, pyReplace full_text d.2 (pyOptStr corr))
  else
    match octx, cs with
    | some a, some b => some (a, b)
    | _, _ => none

/-- One iteration of the deletion loop (lines 102-132 of the source):
`none` models the `UnboundLocalError` raised when `original_partial` /
`corrected_sentence` are read before their first assignment. -/
def delStep (full_text : String) (insertions : List (String × String))
    (uid : Nat) (octx cs : Option String) (d : String × String) :
    Option (Record × String × String) :=
  (delCtxPair full_text octx cs d (delCorrection insertions d.1)).map
    (fun ab => (delRecordCore full_text insertions uid d ab.1 ab.2, ab.1, ab.2))

/-- The row appended for one unmatched insertion (lines 134-151). -/
def insStep (full_text : String) (uid : Nat) (i : String × String) : Record :=
  let octx := get_surrounding_text full_text i.2
  let cs := pyReplace full_text i.2 i.2
  { ID := uid
    original_single := none
    original_ctx := octx
    original_sentence := full_text
    correction_single := some i.2
    correction_ctx := pyReplace octx i.2 i.2
    corrected_sentence := cs
    change_type := "insertion" }

/-- The deletion loop over one paragraph's merged deletions. -/
def processDels (full_text : String) (insertions : List (String × String)) :
    List (String × String) → ExtSt → Except String ExtSt
  | [], st => .ok st
  | d :: rest, st =>
    match delStep full_text insertions st.unique_id st.original_ctx st.corrected_sentence d with
    | none => .error "UnboundLocalError"
    | some (r, a, b) =>
      processDels full_text insertions rest
        { data := st.data ++ [r]
          unique_id := st.unique_id + 1
          original_ctx := some a
          corrected_sentence := some b }

/-- The insertion loop over one paragraph's insertions: marks whose
identifier equals some merged deletion's identifier are skipped. -/
def processInss (full_text : String) (deletions : List (String × String)) :
    List (String × String) → ExtSt → ExtSt
  | [], st => st
  | i :: rest, st =>
    if deletions.any (fun d => d.1 == i.1) then
      processInss full_text deletions rest st
    else
      let r := insStep full_text st.unique_id i
      processInss full_text deletions rest
        { data := st.data ++ [r]
          unique_id := st.unique_id + 1
          original_ctx := some r.original_ctx
          corrected_sentence := some r.corrected_sentence }

/-- The body of `extract_tracked_changes` for one paragraph: scan the marks
(the id fallback uses the current `unique_id`), merge the deletions, then run
the deletion and insertion loops. -/
def processParagraph (st : ExtSt) (p : Paragraph) : Except String ExtSt :=
  match processDels p.fullText (scanMarks st.unique_id p.insMarks)
      (merge_deletions (scanMarks st.unique_id p.delMarks)) st with
  | .error e => .error e
  | .ok st1 =>
    .ok (processInss p.fullText (merge_deletions (scanMarks st.unique_id p.delMarks))
          (scanMarks st.unique_id p.insMarks) st1)

/-- The paragraph loop of `extract_tracked_changes`. -/
def processParagraphs : List Paragraph → ExtSt → Except String ExtSt
  | [], st => .ok st
  | p :: ps, st =>
    match processParagraph st p with
    | .error e => .error e
    | .ok st1 => processParagraphs ps st1

/-- The initial state of `extract_tracked_changes` (lines 75-76 of the
source, plus the still-unbound context locals). -/
def initSt : ExtSt :=
  { data := [], unique_id := 1, original_ctx := none, corrected_sentence := none }

/-- `extract_tracked_changes`, from the parsed paragraph list to the emitted
rows (`data`); `unique_id` starts at 1 and the context locals start
unbound.  An `.error` is Python's `UnboundLocalError`. -/
def extract_tracked_changes (doc : List Paragraph) : Except String (List Record) :=
  match processParagraphs doc initSt with
  | .error e => .error e
  | .ok st => .ok st.data

lemma range'_succ_eq (s n : Nat) : List.range' s (n + 1) = s :: List.range' (s + 1) n := rfl

lemma range'_add (a m n : Nat) :
    List.range' a m ++ List.range' (a + m) n = List.range' a (m + n) := by
  induction m generalizing a with
  | zero => simp
  | succ m ih =>
    have h1 : a + (m + 1) = (a + 1) + m := by omega
    have h2 : m + 1 + n = (m + n) + 1 := by omega
    rw [range'_succ_eq, h2, range'_succ_eq, List.cons_append, h1, ih (a + 1)]

/-- Every pair kept by the scanner has non-empty text (`if del_text:`). -/
lemma scanMarks_ne {uid : Nat} {ms : List RawMark} {q : String × String}
    (hq : q ∈ scanMarks uid ms) : q.2 ≠ "" := by
  unfold scanMarks at hq
  have h := (List.mem_filter.mp hq).2
  simpa using h

/-- Membership in the scanner output: exactly the marks with non-empty text,
with the `unique_id` fallback substituted for a missing id attribute. -/
lemma scanMarks_mem_iff (uid : Nat) (ms : List RawMark) (q : String × String) :
    q ∈ scanMarks uid ms ↔
      ∃ m, m ∈ ms ∧ m.text ≠ "" ∧ q = (m.idAttr.getD (toString uid), m.text) := by
  constructor
  · intro hq
    obtain ⟨hq1, hq2⟩ := List.mem_filter.mp hq
    obtain ⟨m, hm, hqm⟩ := List.mem_map.mp hq1
    refine ⟨m, hm, ?_, hqm.symm⟩
    rw [← hqm] at hq2
    simpa using hq2
  · rintro ⟨m, hm, hne, rfl⟩
    refine List.mem_filter.mpr ⟨List.mem_map.mpr ⟨m, hm, rfl⟩, ?_⟩
    simpa using hne

lemma flatMap_cons_nil (l : List Char) : l.flatMap (fun c => c :: []) = l := by
  induction l with
  | nil => rfl
  | cons c cs ih => simp [ih]

lemma pyReplaceAux_self (o : Char) (os : List Char) :
    ∀ (fuel : Nat) (l : List Char), l.length ≤ fuel →
      pyReplaceAux (o :: os) (o :: os) fuel l = l := by
  intro fuel
  induction fuel with
  | zero =>
    intro l hl
    cases l with
    | nil => rfl
    | cons c cs => simp at hl
  | succ fuel ih =>
    intro l hl
    cases l with
    | nil => rfl
    | cons c cs =>
      by_cases hp : (o :: os).isPrefixOf (c :: cs) = true
      · obtain ⟨t, ht⟩ := List.isPrefixOf_iff_prefix.mp hp
        have hdrop : List.drop (o :: os).length (c :: cs) = t := by
          rw [← ht, List.drop_left]
        have htl : t.length ≤ fuel := by
          have := congrArg List.length ht
          simp [List.length_append] at this
          simp at hl
          omega
        simp only [pyReplaceAux, hp, if_true, hdrop, ih t htl]
        exact ht
      · have hl2 : cs.length ≤ fuel := by simp at hl; omega
        simp only [pyReplaceAux, hp, if_false, ih cs hl2]
        simp

/-- Python `s.replace(t, t) == s`. -/
lemma pyReplace_self (s t : String) : pyReplace s t t = s := by
  unfold pyReplace
  cases ht : t.data with
  | nil =>
    show String.mk ([] ++ s.data.flatMap (fun c => c :: [])) = s
    rw [List.nil_append, flatMap_cons_nil]
  | cons o os =>
    show String.mk (pyReplaceAux (o :: os) (o :: os) s.data.length s.data) = s
    rw [pyReplaceAux_self o os s.data.length s.data (Nat.le_refl _)]

/-- Inversion of one deletion-loop iteration. -/
lemma delStep_eq_some {full_text : String} {insertions : List (String × String)}
    {uid : Nat} {octx cs : Option String} {d : String × String}
    {r : Record} {a b : String}
    (h : delStep full_text insertions uid octx cs d = some (r, a, b)) :
    r = delRecordCore full_text insertions uid d a b ∧
      (pystrip d.2 ≠ "" →
        a = get_surrounding_text full_text d.2 ∧
        b = pyReplace full_text d.2 (pyOptStr (delCorrection insertions d.1))) := by
  unfold delStep at h
  rw [Option.map_eq_some'] at h
  obtain ⟨⟨a1, b1⟩, hab, heq⟩ := h
  injection heq with hr htail
  injection htail with ha hb
  subst hr ha hb
  refine ⟨rfl, fun hne => ?_⟩
  unfold delCtxPair at hab
  rw [if_pos (by simpa using hne)] at hab
  injection hab with hab1
  exact ⟨(congrArg Prod.fst hab1).symm, (congrArg Prod.snd hab1).symm⟩

/-- A deletion whose text strips non-empty never hits the unbound locals. -/
lemma delStep_isSome {full_text : String} {insertions : List (String × String)}
    {uid : Nat} {octx cs : Option String} {d : String × String}
    (hne : pystrip d.2 ≠ "") :
    delStep full_text insertions uid octx cs d =
      some (delRecordCore full_text insertions uid d
              (get_surrounding_text full_text d.2)
              (pyReplace full_text d.2 (pyOptStr (delCorrection insertions d.1))),
            get_surrounding_text full_text d.2,
            pyReplace full_text d.2 (pyOptStr (delCorrection insertions d.1))) := by
  unfold delStep delCtxPair
  rw [if_pos (by simpa using hne)]
  rfl

/-- What the deletion loop records about each appended row. -/
def DelRel (full_text : String) (insertions : List (String × String))
    (d : String × String) (r : Record) : Prop :=
  ∃ uid a b, r = delRecordCore full_text insertions uid d a b ∧
    (pystrip d.2 ≠ "" →
      a = get_surrounding_text full_text d.2 ∧
      b = pyReplace full_text d.2 (pyOptStr (delCorrection insertions d.1)))

/-- What the insertion loop records about each appended row. -/
def InsRel (full_text : String) (i : String × String) (r : Record) : Prop :=
  ∃ uid, r = insStep full_text uid i

/-- The deletion loop appends one row per merged deletion, assigns the ids
`unique_id, unique_id + 1, ...`, and each row satisfies `DelRel`. -/
lemma processDels_spec (full_text : String) (insertions : List (String × String)) :
    ∀ (dels : List (String × String)) (st st' : ExtSt),
      processDels full_text insertions dels st = .ok st' →
      ∃ recs, st'.data = st.data ++ recs ∧
        st'.unique_id = st.unique_id + recs.length ∧
        recs.map Record.ID = List.range' st.unique_id recs.length ∧
        List.Forall₂ (DelRel full_text insertions) dels recs := by
  intro dels
  induction dels with
  | nil =>
    intro st st' h
    unfold processDels at h
    injection h with h
    subst h
    exact ⟨[], by simp, by simp, rfl, List.Forall₂.nil⟩
  | cons d rest ih =>
    intro st st' h
    unfold processDels at h
    split at h
    · exact absurd h (by simp)
    · rename_i r a b hds
      obtain ⟨recs, hdata, huid, hids, hrel⟩ := ih _ st' h
      have hdata' : st'.data = (st.data ++ [r]) ++ recs := hdata
      have huid' : st'.unique_id = (st.unique_id + 1) + recs.length := huid
      have hids' : recs.map Record.ID = List.range' (st.unique_id + 1) recs.length := hids
      obtain ⟨hr, himp⟩ := delStep_eq_some hds
      have hID : r.ID = st.unique_id := by rw [hr]; rfl
      refine ⟨r :: recs, ?_, ?_, ?_, ?_⟩
      · rw [hdata', List.append_assoc]; rfl
      · rw [huid', List.length_cons]; omega
      · rw [List.map_cons, List.length_cons, range'_succ_eq, hID, hids']
      · exact List.Forall₂.cons ⟨st.unique_id, a, b, hr, himp⟩ hrel

/-- The insertion loop appends one row per insertion whose identifier matches
no merged deletion, with contiguous ids and rows given by `insStep`. -/
lemma processInss_spec (full_text : String) (deletions : List (String × String)) :
    ∀ (inss : List (String × String)) (st : ExtSt),
      ∃ recs, (processInss full_text deletions inss st).data = st.data ++ recs ∧
        (processInss full_text deletions inss st).unique_id = st.unique_id + recs.length ∧
        recs.map Record.ID = List.range' st.unique_id recs.length ∧
        List.Forall₂ (InsRel full_text)
          (inss.filter (fun i => !(deletions.any (fun d => d.1 == i.1)))) recs := by
  intro inss
  induction inss with
  | nil =>
    intro st
    exact ⟨[], by simp [processInss], by simp [processInss], rfl, List.Forall₂.nil⟩
  | cons i rest ih =>
    intro st
    by_cases hmatch : deletions.any (fun d => d.1 == i.1) = true
    · have hstep : processInss full_text deletions (i :: rest) st =
          processInss full_text deletions rest st := by
        conv_lhs => rw [processInss]
        rw [if_pos hmatch]
      obtain ⟨recs, h1, h2, h3, h4⟩ := ih st
      refine ⟨recs, ?_, ?_, h3, ?_⟩
      · rw [hstep]; exact h1
      · rw [hstep]; exact h2
      · rw [List.filter_cons]
        simp only [hmatch, Bool.not_true, if_false]
        exact h4
    · have hstep : processInss full_text deletions (i :: rest) st =
          processInss full_text deletions rest
            { data := st.data ++ [insStep full_text st.unique_id i]
              unique_id := st.unique_id + 1
              original_ctx := some (insStep full_text st.unique_id i).original_ctx
              corrected_sentence := some (insStep full_text st.unique_id i).corrected_sentence } := by
        conv_lhs => rw [processInss]
        rw [if_neg hmatch]
      obtain ⟨recs, h1, h2, h3, h4⟩ := ih
        { data := st.data ++ [insStep full_text st.unique_id i]
          unique_id := st.unique_id + 1
          original_ctx := some (insStep full_text st.unique_id i).original_ctx
          corrected_sentence := some (insStep full_text st.unique_id i).corrected_sentence }
      refine ⟨insStep full_text st.unique_id i :: recs, ?_, ?_, ?_, ?_⟩
      · rw [hstep, h1, List.append_assoc]; rfl
      · rw [hstep, h2, List.length_cons]; simp; omega
      · rw [List.map_cons, List.length_cons, range'_succ_eq]
        have h3' : recs.map Record.ID = List.range' (st.unique_id + 1) recs.length := h3
        rw [h3']
        rfl
      · rw [List.filter_cons]
        simp only [hmatch, Bool.not_false, if_true, Bool.not_eq_true']
        refine List.Forall₂.cons ⟨st.unique_id, rfl⟩ h4

/-- Combined guarantee for one paragraph. -/
lemma processParagraph_spec (p : Paragraph) (st st' : ExtSt)
    (h : processParagraph st p = .ok st') :
    ∃ delRecs insRecs,
      st'.data = st.data ++ delRecs ++ insRecs ∧
      st'.unique_id = st.unique_id + delRecs.length + insRecs.length ∧
      (delRecs ++ insRecs).map Record.ID =
        List.range' st.unique_id (delRecs.length + insRecs.length) ∧
      List.Forall₂ (DelRel p.fullText (scanMarks st.unique_id p.insMarks))
        (merge_deletions (scanMarks st.unique_id p.delMarks)) delRecs ∧
      List.Forall₂ (InsRel p.fullText)
        ((scanMarks st.unique_id p.insMarks).filter
          (fun i => !((merge_deletions (scanMarks st.unique_id p.delMarks)).any
            (fun d => d.1 == i.1)))) insRecs := by
  unfold processParagraph at h
  split at h
  · exact absurd h (by simp)
  · rename_i st1 heq
    injection h with h
    subst h
    obtain ⟨delRecs, g1, g2, g3, g4⟩ :=
      processDels_spec p.fullText (scanMarks st.unique_id p.insMarks)
        (merge_deletions (scanMarks st.unique_id p.delMarks)) st st1 heq
    obtain ⟨insRecs, k1, k2, k3, k4⟩ :=
      processInss_spec p.fullText (merge_deletions (scanMarks st.unique_id p.delMarks))
        (scanMarks st.unique_id p.insMarks) st1
    refine ⟨delRecs, insRecs, ?_, ?_, ?_, g4, k4⟩
    · rw [k1, g1]
    · rw [k2, g2]
    · rw [List.map_append, g3, k3, g2, range'_add]

/-- Rows appended by the engine come from the deletion loop or the insertion
loop. -/
def EmittedRecord (r : Record) : Prop :=
  (∃ full_text insertions uid d a b, r = delRecordCore full_text insertions uid d a b) ∨
  (∃ full_text uid i, r = insStep full_text uid i)

lemma forall₂_mem_right {α β : Type} {R : α → β → Prop} :
    ∀ {l₁ : List α} {l₂ : List β}, List.Forall₂ R l₁ l₂ →
      ∀ b ∈ l₂, ∃ a ∈ l₁, R a b := by
  intro l₁ l₂ h
  induction h with
  | nil => intro b hb; cases hb
  | cons hr ht ih =>
    intro b hb
    rcases List.mem_cons.mp hb with hb | hb
    · subst hb; exact ⟨_, List.mem_cons_self _ _, hr⟩
    · obtain ⟨a, ha, hab⟩ := ih b hb
      exact ⟨a, List.mem_cons_of_mem _ ha, hab⟩

lemma delRel_emitted {full_text : String} {insertions : List (String × String)}
    {d : String × String} {r : Record} (h : DelRel full_text insertions d r) :
    EmittedRecord r := by
  obtain ⟨uid, a, b, hr, -⟩ := h
  exact Or.inl ⟨full_text, insertions, uid, d, a, b, hr⟩

lemma insRel_emitted {full_text : String} {i : String × String} {r : Record}
    (h : InsRel full_text i r) : EmittedRecord r := by
  obtain ⟨uid, hr⟩ := h
  exact Or.inr ⟨full_text, uid, i, hr⟩

/-- The paragraph loop: everything appended carries contiguous ids starting at
the incoming `unique_id`, and every appended row is a loop-emitted row. -/
lemma processParagraphs_spec :
    ∀ (ps : List Paragraph) (st st' : ExtSt),
      processParagraphs ps st = .ok st' →
      ∃ recs, st'.data = st.data ++ recs ∧
        st'.unique_id = st.unique_id + recs.length ∧
        recs.map Record.ID = List.range' st.unique_id recs.length ∧
        ∀ r ∈ recs, EmittedRecord r := by
  intro ps
  induction ps with
  | nil =>
    intro st st' h
    unfold processParagraphs at h
    injection h with h
    subst h
    exact ⟨[], by simp, by simp, rfl, by intro r hr; cases hr⟩
  | cons p rest ih =>
    intro st st' h
    unfold processParagraphs at h
    split at h
    · exact absurd h (by simp)
    · rename_i st1 heq
      obtain ⟨recs2, h1, h2, h3, h4⟩ := ih st1 st' h
      obtain ⟨dr, ir, g1, g2, g3, g4, g5⟩ := processParagraph_spec p st st1 heq
      refine ⟨(dr ++ ir) ++ recs2, ?_, ?_, ?_, ?_⟩
      · rw [h1, g1, List.append_assoc, List.append_assoc, List.append_assoc]
      · rw [h2, g2, List.length_append, List.length_append]; omega
      · rw [List.map_append, g3, h3, g2]
        have hmid : st.unique_id + dr.length + ir.length = st.unique_id + (dr.length + ir.length) := by
          omega
        rw [hmid, range'_add, List.length_append, List.length_append]
      · intro r hr
        rcases List.mem_append.mp hr with hr | hr
        · rcases List.mem_append.mp hr with hr | hr
          · obtain ⟨d, -, hrel⟩ := forall₂_mem_right g4 r hr
            exact delRel_emitted hrel
          · obtain ⟨i, -, hrel⟩ := forall₂_mem_right g5 r hr
            exact insRel_emitted hrel
        · exact h4 r hr

lemma delRecordCore_ct (full_text : String) (insertions : List (String × String))
    (uid : Nat) (d : String × String) (a b : String) :
    (delRecordCore full_text insertions uid d a b).change_type =
      (if pyTruthy (delCorrection insertions d.1) &&
          is_partial_word_modification d.2 (pyOptStr (delCorrection insertions d.1)) then
        "partial-word modification"
      else if pyTruthy (matchingInsert insertions d.1) then "both"
      else "deletion") := rfl

lemma delRecordCore_cs (full_text : String) (insertions : List (String × String))
    (uid : Nat) (d : String × String) (a b : String) :
    (delRecordCore full_text insertions uid d a b).correction_single =
      delCorrection insertions d.1 := rfl

/-- `delCorrection` is `none` exactly when no truthy insertion matches;
otherwise it holds the first matching insertion's (non-empty) text. -/
lemma delCorrection_cases (inss : List (String × String)) (did : String) :
    (delCorrection inss did = none ∧ pyTruthy (matchingInsert inss did) = false) ∨
    (∃ c, delCorrection inss did = some c ∧ matchingInsert inss did = some c ∧ c ≠ "") := by
  unfold delCorrection
  by_cases h : pyTruthy (matchingInsert inss did) = true
  · right
    rw [if_pos h]
    cases hm : matchingInsert inss did with
    | none => rw [hm] at h; exact absurd h (by decide)
    | some c =>
      refine ⟨c, rfl, rfl, ?_⟩
      rw [hm] at h
      simpa [pyTruthy] using h
  · left
    rw [if_neg h]
    exact ⟨rfl, by simpa using h⟩

/-- Classification of a deletion-loop row: `partial-word modification` exactly
when a truthy correction matched and the predicate holds; no correction means
type `deletion`. -/
lemma delRecordCore_classifier (full_text : String) (insertions : List (String × String))
    (uid : Nat) (d : String × String) (a b : String) :
    ((delRecordCore full_text insertions uid d a b).change_type = "partial-word modification" ↔
      ∃ c, (delRecordCore full_text insertions uid d a b).correction_single = some c ∧
        is_partial_word_modification d.2 c = true) ∧
    ((delRecordCore full_text insertions uid d a b).correction_single = none →
      (delRecordCore full_text insertions uid d a b).change_type = "deletion") := by
  rcases delCorrection_cases insertions d.1 with ⟨hc, ht⟩ | ⟨c, hc, hm, hne⟩
  · have hct : (delRecordCore full_text insertions uid d a b).change_type = "deletion" := by
      rw [delRecordCore_ct, hc, ht]
      simp [pyTruthy]
    refine ⟨?_, fun _ => hct⟩
    rw [hct, delRecordCore_cs, hc]
    constructor
    · intro hfalse; exact absurd hfalse (by decide)
    · rintro ⟨c, hcc, -⟩; cases hcc
  · by_cases hp : is_partial_word_modification d.2 c = true
    · have hct : (delRecordCore full_text insertions uid d a b).change_type =
          "partial-word modification" := by
        rw [delRecordCore_ct, hc]
        simp [pyTruthy, pyOptStr, hne, hp]
      refine ⟨?_, ?_⟩
      · rw [hct, delRecordCore_cs, hc]
        exact iff_of_true rfl ⟨c, rfl, hp⟩
      · intro h0
        rw [delRecordCore_cs, hc] at h0
        cases h0
    · have hct : (delRecordCore full_text insertions uid d a b).change_type = "both" := by
        rw [delRecordCore_ct, hc, hm]
        simp [pyTruthy, pyOptStr, hne, hp]
      refine ⟨?_, ?_⟩
      · rw [hct, delRecordCore_cs, hc]
        constructor
        · intro hfalse; exact absurd hfalse (by decide)
        · rintro ⟨c1, hcc, hp1⟩
          injection hcc with hcc
          subst hcc
          exact absurd hp1 hp
      · intro h0
        rw [delRecordCore_cs, hc] at h0
        cases h0

/-- The invariant behind the claim that `correction_partial` is never an
independently computed window: it copies `corrected_sentence` on
deletion-derived rows and `original_partial` on insertion rows. -/
def RecordCtxInv (r : Record) : Prop :=
  (r.change_type = "insertion" → r.correction_ctx = r.original_ctx) ∧
  (r.change_type ≠ "insertion" → r.correction_ctx = r.corrected_sentence)

lemma delRecordCore_type_ne_ins (full_text : String) (insertions : List (String × String))
    (uid : Nat) (d : String × String) (a b : String) :
    (delRecordCore full_text insertions uid d a b).change_type ≠ "insertion" := by
  rw [delRecordCore_ct]
  split
  · decide
  · split
    · decide
    · decide

lemma emitted_ctx_inv {r : Record} (h : EmittedRecord r) : RecordCtxInv r := by
  rcases h with ⟨ft, inss, uid, d, a, b, hr⟩ | ⟨ft, uid, i, hr⟩
  · subst hr
    exact ⟨fun hins => absurd hins (delRecordCore_type_ne_ins ft inss uid d a b),
           fun _ => rfl⟩
  · subst hr
    constructor
    · intro _
      show pyReplace (get_surrounding_text ft i.2) i.2 i.2 = get_surrounding_text ft i.2
      exact pyReplace_self _ _
    · intro hne
      exact absurd rfl hne

/-- C2: the deletion merger scans left to right with an accumulator: it
appends with a single separating space exactly when the next identifier
equals the accumulator's, otherwise flushes and restarts; the final
accumulator is flushed, order is preserved, the empty input gives the empty
output, and `[(1,"A"),(1,"B"),(2,"C")]` merges to `[(1,"A B"),(2,"C")]`. -/
theorem merge_scan_claim :
    merge_deletions ([] : List (String × String)) = [] ∧
    (∀ a : String × String, merge_deletions [a] = [a]) ∧
    (∀ (a b : String × String) (l : List (String × String)), a.1 = b.1 →
        merge_deletions (a :: b :: l) =
          merge_deletions ((a.1, a.2 ++ " " ++ b.2) :: l)) ∧
    (∀ (a b : String × String) (l : List (String × String)), a.1 ≠ b.1 →
        merge_deletions (a :: b :: l) = a :: merge_deletions (b :: l)) ∧
    merge_deletions [("1", "A"), ("1", "B"), ("2", "C")] = [("1", "A B"), ("2", "C")] := by
  refine ⟨rfl, fun a => rfl, ?_, ?_, by decide⟩
  · intro a b l h
    show merge_core a (b :: l) = merge_core (a.1, a.2 ++ " " ++ b.2) l
    conv_lhs => rw [merge_core]
    rw [if_pos h]
  · intro a b l h
    show merge_core a (b :: l) = a :: merge_core b l
    conv_lhs => rw [merge_core]
    rw [if_neg h]

theorem merge_scan_claim_witness :
    merge_deletions [(("1" : String), ("X" : String)), ("1", "Y")] = merge_deletions [("1", "X Y")] ∧
    merge_deletions [(("1" : String), ("X" : String)), ("2", "Y")] = ("1", "X") :: merge_deletions [("2", "Y")] :=
  ⟨merge_scan_claim.2.2.1 ("1", "X") ("1", "Y") [] rfl,
   merge_scan_claim.2.2.2.1 ("1", "X") ("2", "Y") [] (by decide)⟩

/-- C3: an edit is reclassified to `partial-word modification` exactly when it
is a replacement (correction present) whose original/correction lengths
differ and whose lowercased original starts with the lowercased correction;
pure deletions and insertions are never reclassified; `"testing"→"test"`
triggers it, `"color"→"colour"` does not. -/
theorem classifier_claim :
    (∀ (full_text : String) (insertions : List (String × String)) (uid : Nat)
        (octx cs : Option String) (d : String × String) (r : Record) (a b : String),
        delStep full_text insertions uid octx cs d = some (r, a, b) →
        ((r.change_type = "partial-word modification" ↔
            ∃ c, r.correction_single = some c ∧
              is_partial_word_modification d.2 c = true) ∧
          (r.correction_single = none → r.change_type = "deletion"))) ∧
    (∀ (full_text : String) (uid : Nat) (i : String × String),
        (insStep full_text uid i).change_type = "insertion") ∧
    is_partial_word_modification "testing" "test" = true ∧
    is_partial_word_modification "color" "colour" = false ∧
    (∀ o c : String, is_partial_word_modification o c = true ↔
        (o.length ≠ c.length ∧ pyStartsWith (pyLower o) (pyLower c) = true)) := by
  refine ⟨?_, fun ft uid i => rfl, rfl, rfl, ?_⟩
  · intro ft inss uid octx cs d r a b h
    obtain ⟨hr, -⟩ := delStep_eq_some h
    subst hr
    exact delRecordCore_classifier ft inss uid d a b
  · intro o c
    unfold is_partial_word_modification
    split
    · rename_i hcond
      simp only [Bool.and_eq_true, decide_eq_true_eq] at hcond
      exact iff_of_true rfl hcond
    · rename_i hcond
      simp only [Bool.and_eq_true, decide_eq_true_eq] at hcond
      exact iff_of_false (by simp) hcond

def recPW : Record :=
  ⟨7, some "testing", "xtestingy", "x testing y", some "test", "x test y", "x test y",
   "partial-word modification"⟩

theorem classifier_claim_witness :
    (recPW.change_type = "partial-word modification" ↔
      ∃ c, recPW.correction_single = some c ∧
        is_partial_word_modification ("1", "testing").2 c = true) ∧
    (recPW.correction_single = none → recPW.change_type = "deletion") :=
  classifier_claim.1 "x testing y" [("1", "test")] 7 none none ("1", "testing") recPW
    "xtestingy" "x test y" rfl

/-- C1: each merged deletion matching the identifier of some insertion (the
first match, searched in the full insertion pool each time) yields a
replacement row carrying that insertion's text; a merged deletion with no
match yields a pure deletion with `None` correction; and each insertion whose
identifier equals no merged deletion's identifier yields exactly one
standalone pure-insertion row. -/
theorem correlator_claim (p : Paragraph) (st st' : ExtSt)
    (h : processParagraph st p = .ok st') :
    ∃ delRecs insRecs,
      st'.data = st.data ++ delRecs ++ insRecs ∧
      List.Forall₂ (fun d r =>
          r.original_single = some d.2 ∧
          (∀ q, (scanMarks st.unique_id p.insMarks).find? (fun i => i.1 == d.1) = some q →
            r.correction_single = some q.2 ∧
            (r.change_type = "both" ∨ r.change_type = "partial-word modification")) ∧
          ((scanMarks st.unique_id p.insMarks).find? (fun i => i.1 == d.1) = none →
            r.correction_single = none ∧ r.change_type = "deletion"))
        (merge_deletions (scanMarks st.unique_id p.delMarks)) delRecs ∧
      List.Forall₂ (fun i r =>
          r.original_single = none ∧ r.correction_single = some i.2 ∧
          r.change_type = "insertion")
        ((scanMarks st.unique_id p.insMarks).filter
          (fun i => !((merge_deletions (scanMarks st.unique_id p.delMarks)).any
            (fun d => d.1 == i.1)))) insRecs := by
  obtain ⟨delRecs, insRecs, g1, g2, g3, g4, g5⟩ := processParagraph_spec p st st' h
  refine ⟨delRecs, insRecs, g1, ?_, ?_⟩
  · refine List.Forall₂.imp ?_ g4
    intro d r hrel
    obtain ⟨uid2, a, b, hr, -⟩ := hrel
    subst hr
    refine ⟨rfl, ?_, ?_⟩
    · intro q hq
      have hqne : q.2 ≠ "" := scanMarks_ne (List.mem_of_find?_eq_some hq)
      have hmi : matchingInsert (scanMarks st.unique_id p.insMarks) d.1 = some q.2 := by
        unfold matchingInsert
        rw [hq]
        rfl
      have htr : pyTruthy (matchingInsert (scanMarks st.unique_id p.insMarks) d.1) = true := by
        rw [hmi]
        simp [pyTruthy, hqne]
      have hcorr : delCorrection (scanMarks st.unique_id p.insMarks) d.1 = some q.2 := by
        unfold delCorrection
        rw [if_pos htr, hmi]
      constructor
      · rw [delRecordCore_cs, hcorr]
      · by_cases hover : (pyTruthy (delCorrection (scanMarks st.unique_id p.insMarks) d.1) &&
            is_partial_word_modification d.2
              (pyOptStr (delCorrection (scanMarks st.unique_id p.insMarks) d.1))) = true
        · rw [delRecordCore_ct, if_pos hover]
          exact Or.inr rfl
        · rw [delRecordCore_ct, if_neg hover, if_pos htr]
          exact Or.inl rfl
    · intro hnone
      have hmi : matchingInsert (scanMarks st.unique_id p.insMarks) d.1 = none := by
        unfold matchingInsert
        rw [hnone]
        rfl
      have htr : pyTruthy (matchingInsert (scanMarks st.unique_id p.insMarks) d.1) = false := by
        rw [hmi]
        rfl
      have hcorr : delCorrection (scanMarks st.unique_id p.insMarks) d.1 = none := by
        unfold delCorrection
        rw [hmi]
        rfl
      constructor
      · rw [delRecordCore_cs, hcorr]
      · rw [delRecordCore_ct, hcorr, htr]
        simp [pyTruthy]
  · refine List.Forall₂.imp ?_ g5
    intro i r hrel
    obtain ⟨uid2, hr⟩ := hrel
    subst hr
    exact ⟨rfl, rfl, rfl⟩

def parC1 : Paragraph :=
  ⟨"a b c", [⟨some "1", "a"⟩, ⟨some "9", "b"⟩], [⟨some "1", "X"⟩, ⟨some "7", "Y"⟩]⟩

def stC1 : ExtSt :=
  { data := [⟨1, some "a", "abc", "a b c", some "X", "X b c", "X b c", "both"⟩,
             ⟨2, some "b", "abc", "a b c", none, "a  c", "a  c", "deletion"⟩,
             ⟨3, none, "a b c", "a b c", some "Y", "a b c", "a b c", "insertion"⟩],
    unique_id := 4,
    original_ctx := some "a b c",
    corrected_sentence := some "a b c" }

theorem correlator_claim_witness :
    ∃ delRecs insRecs,
      stC1.data = initSt.data ++ delRecs ++ insRecs ∧
      List.Forall₂ (fun d r =>
          r.original_single = some d.2 ∧
          (∀ q, (scanMarks initSt.unique_id parC1.insMarks).find? (fun i => i.1 == d.1) = some q →
            r.correction_single = some q.2 ∧
            (r.change_type = "both" ∨ r.change_type = "partial-word modification")) ∧
          ((scanMarks initSt.unique_id parC1.insMarks).find? (fun i => i.1 == d.1) = none →
            r.correction_single = none ∧ r.change_type = "deletion"))
        (merge_deletions (scanMarks initSt.unique_id parC1.delMarks)) delRecs ∧
      List.Forall₂ (fun i r =>
          r.original_single = none ∧ r.correction_single = some i.2 ∧
          r.change_type = "insertion")
        ((scanMarks initSt.unique_id parC1.insMarks).filter
          (fun i => !((merge_deletions (scanMarks initSt.unique_id parC1.delMarks)).any
            (fun d => d.1 == i.1)))) insRecs :=
  correlator_claim parC1 initSt stC1 rfl

/-- C4, counterexample: with full text `"ab ab"` and deletion `"ab"` the
emitted corrected sentence is `" "` (both occurrences removed), while
replacing only the first literal occurrence would give `" ab"`. -/
theorem replace_first_counterexample :
    Except.map (fun recs => recs.map Record.corrected_sentence)
        (extract_tracked_changes [⟨"ab ab", [⟨some "5", "ab"⟩], []⟩]) = .ok [" "] ∧
    spec_replaceFirst "ab ab" "ab" "" = " ab" ∧
    (" " : String) ≠ " ab" :=
  ⟨rfl, rfl, by decide⟩

/-- C4, amended: the corrected sentence of a deletion-derived row is the full
text with EVERY non-overlapping literal occurrence of the deleted snippet
replaced by the correction (empty for pure deletions), i.e. Python
`str.replace` semantics; e.g. `"ab ab".replace("ab", x)` changes both
occurrences. -/
theorem replace_all_claim :
    (∀ (full_text : String) (insertions : List (String × String)) (uid : Nat)
        (octx cs : Option String) (d : String × String), pystrip d.2 ≠ "" →
        ∃ r a b, delStep full_text insertions uid octx cs d = some (r, a, b) ∧
          r.corrected_sentence =
            pyReplace full_text d.2 (pyOptStr (delCorrection insertions d.1)) ∧
          r.original_ctx = get_surrounding_text full_text d.2) ∧
    pyReplace "ab ab" "ab" "X" = "X X" ∧
    pyReplace "ab ab" "ab" "" = " " := by
  refine ⟨?_, rfl, rfl⟩
  intro ft inss uid octx cs d hne
  exact ⟨_, _, _, delStep_isSome hne, rfl, rfl⟩

theorem replace_all_claim_witness :
    ∃ r a b, delStep "ab ab" [] 1 none none ("5", "ab") = some (r, a, b) ∧
      r.corrected_sentence =
        pyReplace "ab ab" ("5", "ab").2 (pyOptStr (delCorrection [] ("5", "ab").1)) ∧
      r.original_ctx = get_surrounding_text "ab ab" ("5", "ab").2 :=
  replace_all_claim.1 "ab ab" [] 1 none none ("5", "ab") (by decide)

/-- C5, counterexample: a whitespace-only mark text (`" "`) is NOT discarded:
it stays in the scanned deletion list, and a row is produced from it (with
stale context fields copied from the previous row). -/
theorem ws_mark_kept_counterexample :
    scanMarks 1 [⟨some "7", " "⟩] = [("7", " ")] ∧
    Except.map (fun recs => recs.map Record.original_single)
        (extract_tracked_changes [⟨"x y", [⟨some "1", "x"⟩, ⟨some "2", " "⟩], []⟩]) =
      .ok [some "x", some " "] :=
  ⟨rfl, rfl⟩

/-- C5, amended: the scanner discards exactly the marks whose extracted text
is empty; a whitespace-only text is kept (and later produces a row, or an
unbound-local error when it is the first deletion processed). -/
theorem scan_discards_only_empty :
    ∀ (uid : Nat) (ms : List RawMark) (q : String × String),
      q ∈ scanMarks uid ms ↔
        ∃ m, m ∈ ms ∧ m.text ≠ "" ∧ q = (m.idAttr.getD (toString uid), m.text) :=
  scanMarks_mem_iff

/-- C6, counterexample: two id-less marks scanned in the same paragraph both
receive the SAME fallback identifier (the current `unique_id`), so they do
correlate: the deletion merger fuses them. -/
theorem fallback_id_counterexample :
    scanMarks 1 [⟨none, "A"⟩, ⟨none, "B"⟩] = [("1", "A"), ("1", "B")] ∧
    merge_deletions (scanMarks 1 [⟨none, "A"⟩, ⟨none, "B"⟩]) = [("1", "A B")] :=
  ⟨rfl, rfl⟩

/-- C6, amended: an id-less mark receives the string of the current
document-wide record counter as fallback identifier; every id-less mark in
the same paragraph scan receives the same value, so id-less marks correlate
with each other (adjacent id-less deletions merge). -/
theorem fallback_id_shared :
    (∀ (uid : Nat) (ms : List RawMark) (m : RawMark), m ∈ ms → m.idAttr = none →
        m.text ≠ "" → (toString uid, m.text) ∈ scanMarks uid ms) ∧
    (∀ (uid : Nat) (t1 t2 : String), t1 ≠ "" → t2 ≠ "" →
        scanMarks uid [⟨none, t1⟩, ⟨none, t2⟩] = [(toString uid, t1), (toString uid, t2)] ∧
        merge_deletions (scanMarks uid [⟨none, t1⟩, ⟨none, t2⟩]) =
          [(toString uid, t1 ++ " " ++ t2)]) := by
  constructor
  · intro uid ms m hm hid hne
    refine (scanMarks_mem_iff uid ms _).mpr ⟨m, hm, hne, ?_⟩
    rw [hid]
    rfl
  · intro uid t1 t2 h1 h2
    have hb1 : (t1 != "") = true := by simpa using h1
    have hb2 : (t2 != "") = true := by simpa using h2
    have hscan : scanMarks uid [⟨none, t1⟩, ⟨none, t2⟩] =
        [(toString uid, t1), (toString uid, t2)] := by
      unfold scanMarks
      simp [List.filter, hb1, hb2]
    refine ⟨hscan, ?_⟩
    rw [hscan]
    show merge_core (toString uid, t1) [(toString uid, t2)] = _
    conv_lhs => rw [merge_core]
    rw [if_pos rfl]
    rfl

theorem fallback_id_shared_witness :
    ((toString 1, "A") ∈ scanMarks 1 [⟨none, "A"⟩]) ∧
    (scanMarks 3 [⟨none, "A"⟩, ⟨none, "B"⟩] = [(toString 3, "A"), (toString 3, "B")] ∧
      merge_deletions (scanMarks 3 [⟨none, "A"⟩, ⟨none, "B"⟩]) = [(toString 3, "A B")]) :=
  ⟨fallback_id_shared.1 1 [⟨none, "A"⟩] ⟨none, "A"⟩ (List.mem_singleton_self _) rfl
      (by decide),
   fallback_id_shared.2 3 "A" "B" (by decide) (by decide)⟩

/-- C7: a document whose first processed deletion has whitespace-only text
makes the engine read `original_partial` before assignment — an
`UnboundLocalError`, i.e. an error beyond the two fatal loading errors; an
empty document still yields zero rows without raising. -/
theorem unbound_local_bug :
    extract_tracked_changes [⟨"x", [⟨some "1", " "⟩], []⟩] = .error "UnboundLocalError" ∧
    extract_tracked_changes [] = .ok [] :=
  ⟨rfl, rfl⟩

/-- C8: across a whole successful extraction the row ids are exactly
`1, 2, ..., n` in emission order — strictly increasing, contiguous, never
reused, regardless of how the rows distribute over paragraphs. -/
theorem extract_sequence_ids :
    ∀ (doc : List Paragraph) (recs : List Record),
      extract_tracked_changes doc = .ok recs →
      recs.map Record.ID = List.range' 1 recs.length := by
  intro doc recs h
  unfold extract_tracked_changes at h
  split at h
  · exact absurd h (by simp)
  · rename_i st heq
    injection h with h
    subst h
    obtain ⟨recs2, h1, -, h3, -⟩ := processParagraphs_spec doc initSt st heq
    have h1' : st.data = recs2 := by simpa [initSt] using h1
    have h3' : recs2.map Record.ID = List.range' 1 recs2.length := h3
    rw [h1']
    exact h3'

def docSeq : List Paragraph :=
  [⟨"x y", [⟨some "1", "x"⟩], []⟩, ⟨"", [], []⟩, ⟨"a b", [], [⟨some "9", "a"⟩]⟩]

def recsSeq : List Record :=
  [⟨1, some "x", "xy", "x y", none, " y", " y", "deletion"⟩,
   ⟨2, none, "ab", "a b", some "a", "ab", "a b", "insertion"⟩]

theorem extract_sequence_ids_witness :
    recsSeq.map Record.ID = List.range' 1 recsSeq.length :=
  extract_sequence_ids docSeq recsSeq rfl

/-- C9: the context extractor returns the word window `words[start:end]`
bounded inside the tokenized text, falls back to the full text (without
raising) when the target is blank or its first word is absent, and on
`"The quick brown fox jumps"` with target `"brown"` and window 1 the window
is exactly `["quick", "brown", "fox"]`. -/
theorem context_extractor_claim :
    (∀ (text target : String) (window : Nat), pystrip target = "" →
        get_surrounding_text text target window = text) ∧
    (∀ (text target : String) (window : Nat) (tw : String) (tws : List String),
        pySplit target = tw :: tws → pyIndex (pySplit text) tw = none →
        get_surrounding_text text target window = text) ∧
    (∀ (words : List String) (index window tlen : Nat), ∃ u v,
        u ++ windowWords words index window tlen ++ v = words) ∧
    pyIndex (pySplit "The quick brown fox jumps") "brown" = some 2 ∧
    windowWords (pySplit "The quick brown fox jumps") 2 1 1 = ["quick", "brown", "fox"] ∧
    get_surrounding_text "The quick brown fox jumps" "brown" 1 = "quickbrownfox" := by
  refine ⟨?_, ?_, ?_, rfl, by decide, rfl⟩
  · intro text target window h
    unfold get_surrounding_text
    rw [if_pos (by simpa using h)]
  · intro text target window tw tws hsplit hidx
    by_cases hps : pystrip target = ""
    · unfold get_surrounding_text
      rw [if_pos (by simpa using hps)]
    · have hb : (pystrip target == "") = false := by simpa using hps
      simp only [get_surrounding_text, hb, Bool.false_eq_true, if_false, hsplit, hidx]
  · intro words index window tlen
    refine ⟨words.take (index - window),
      (words.drop (index - window)).drop
        (min words.length (index + window + tlen) - (index - window)), ?_⟩
    simp only [windowWords]
    rw [List.append_assoc, List.take_append_drop, List.take_append_drop]

theorem context_extractor_claim_witness :
    get_surrounding_text "abc" " " 3 = "abc" ∧
    get_surrounding_text "a b" "zz" 2 = "a b" ∧
    (∃ u v, u ++ windowWords ["a", "b"] 0 1 1 ++ v = ["a", "b"]) :=
  ⟨context_extractor_claim.1 "abc" " " 3 rfl,
   context_extractor_claim.2.1 "a b" "zz" 2 "zz" [] rfl rfl,
   context_extractor_claim.2.2.1 ["a", "b"] 0 1 1⟩

/-- C10: in every emitted row the `correction_partial` field is never a
separately computed window: on insertion rows it equals `original_partial`,
and on all deletion-derived rows it equals the resulting full sentence. -/
theorem correction_ctx_claim :
    ∀ (doc : List Paragraph) (recs : List Record),
      extract_tracked_changes doc = .ok recs →
      ∀ r ∈ recs, RecordCtxInv r := by
  intro doc recs h r hr
  unfold extract_tracked_changes at h
  split at h
  · exact absurd h (by simp)
  · rename_i st heq
    injection h with h
    subst h
    obtain ⟨recs2, h1, -, -, h4⟩ := processParagraphs_spec doc initSt st heq
    have h1' : st.data = recs2 := by simpa [initSt] using h1
    rw [h1'] at hr
    exact emitted_ctx_inv (h4 r hr)

theorem correction_ctx_claim_witness :
    RecordCtxInv ⟨1, some "x", "xy", "x y", none, " y", " y", "deletion"⟩ ∧
    RecordCtxInv ⟨2, none, "ab", "a b", some "a", "ab", "a b", "insertion"⟩ :=
  ⟨correction_ctx_claim docSeq recsSeq rfl
      ⟨1, some "x", "xy", "x y", none, " y", " y", "deletion"⟩ (by decide),
   correction_ctx_claim docSeq recsSeq rfl
      ⟨2, none, "ab", "a b", some "a", "ab", "a b", "insertion"⟩ (by decide)⟩
